import Mathlib

/-!
Verification development for the sweetagent repository.

The definitions below are a shallow embedding of the Python sources
`src/sweetagent/prompt.py` and `src/sweetagent/llm_client.py`:

* the section-delimited response decoder `PromptEngine.extract_formatted_llm_response`
  together with its tool-argument sub-scan `_decode_tool_arguments_section`;
* the freeform decoder `SimplePromptEngine.extract_formatted_llm_response`;
* the state-machine serialization `BaseState.to_string` /
  `build_single_transition` / `build_decl`;
* the FSM-mode decoder `FSMPromptEngine.extract_formatted_llm_response`;
* the completion retry loop of `LLMClient.complete` and its post-receipt
  content normalization.

Machine strings are modelled over `String`/`List Char` with explicit ASCII
whitespace/word classes matching the regular expressions of the source.
-/

set_option maxRecDepth 10000

namespace Sweetagent

/-- Python `\s` whitespace class, restricted to its ASCII members. -/
def pyIsSpace (c : Char) : Bool :=
  c == ' ' || c == '\t' || c == '\n' || c == '\r' || c == '\x0b' || c == '\x0c'

/-- Python `\w` word class, restricted to its ASCII members. -/
def pyIsWord (c : Char) : Bool :=
  c.isAlphanum || c == '_'

/-- Python `str.strip()` on a character list (ASCII whitespace). -/
def pyStripL (l : List Char) : List Char :=
  ((l.dropWhile pyIsSpace).reverse.dropWhile pyIsSpace).reverse

/-- Python `str.strip()` on a string. -/
def stripStr (s : String) : String :=
  String.mk (pyStripL s.data)

/-- Python `str.lower()` (ASCII case folding, character by character). -/
def pyToLower (s : String) : String :=
  String.mk (s.data.map Char.toLower)

/-- Helper for Python `str.splitlines(keepends=True)`: accumulates the current
line in reverse in `acc`. -/
def pySplitlinesAux : List Char → List Char → List (List Char)
  | [], acc => if acc.isEmpty then [] else [acc.reverse]
  | '\r' :: '\n' :: rest, acc => (acc.reverse ++ ['\r', '\n']) :: pySplitlinesAux rest []
  | '\n' :: rest, acc => (acc.reverse ++ ['\n']) :: pySplitlinesAux rest []
  | '\r' :: rest, acc => (acc.reverse ++ ['\r']) :: pySplitlinesAux rest []
  | c :: rest, acc => pySplitlinesAux rest (c :: acc)

/-- Python `str.splitlines(keepends=True)` for the line boundaries `\n`,
`\r\n` and `\r` (the only ones the sources produce). -/
def pySplitlines (s : String) : List String :=
  (pySplitlinesAux s.data []).map String.mk

/-- One attempted match of the section-header regular expression
`D+\s*(\w+)\s*D+` (with delimiter character `delim`) anchored at the start of
`l`; returns the captured word.  The three character classes `delim`, `\s`
and `\w` are pairwise disjoint, so the greedy backtracking search of the
Python engine is equivalent to this straight-line scan. -/
def matchHeaderAt (delim : Char) (l : List Char) : Option (List Char) :=
  let plusRun := l.takeWhile (· == delim)
  if plusRun.isEmpty then none
  else
    let r1 := (l.dropWhile (· == delim)).dropWhile pyIsSpace
    let word := r1.takeWhile pyIsWord
    if word.isEmpty then none
    else
      let r2 := (r1.dropWhile pyIsWord).dropWhile pyIsSpace
      match r2 with
      | c :: _ => if c == delim then some word else none
      | [] => none

/-- Python `re.search` of the section-header pattern: the leftmost position
at which `matchHeaderAt` succeeds. -/
def searchHeader (delim : Char) : List Char → Option (List Char)
  | [] => none
  | c :: rest =>
    match matchHeaderAt delim (c :: rest) with
    | some w => some w
    | none => searchHeader delim rest

/-- `PromptEngine.rgx_section.search(line)` (pattern `\++\s*(\w+)\s*\++`),
returning the captured group. -/
def headerName (l : String) : Option String :=
  (searchHeader '+' l.data).map String.mk

/-- `PromptEngine.rgx_tool_arguments_field.search(line)` (pattern
`~+\s*(\w+)\s*~+`), returning the captured group. -/
def fieldHeaderName (l : String) : Option String :=
  (searchHeader '~' l.data).map String.mk

/-- Assignment `d[k] = v` on an insertion-ordered association list: replaces
the value at an existing key in place, otherwise appends. -/
def insertSec : List (String × String) → String → String → List (String × String)
  | [], k, v => [(k, v)]
  | (k', v') :: rest, k, v =>
    if k' = k then (k, v) :: rest else (k', v') :: insertSec rest k v

/-- Lookup `d.get(k)` on an association list. -/
def lookupSec : List (String × String) → String → Option String
  | [], _ => none
  | (k', v') :: rest, k => if k' = k then some v' else lookupSec rest k

/-- The top-level line scan of `PromptEngine.extract_formatted_llm_response`
(prompt.py lines 280-297): `cur` is `current_section`, `buf` the open
`StringIO` buffer, `secs` the `sections` dict.  A header finalizes the open
section; the name `end` stops the scan; lines outside any section are
discarded.  No finalization happens at end of input. -/
def scanAux : List String → Option String → String → List (String × String) → List (String × String)
  | [], _, _, secs => secs
  | l :: ls, cur, buf, secs =>
    match headerName l with
    | some w =>
      let secs1 := match cur with
        | some c => insertSec secs c (stripStr buf)
        | none => secs
      let nm := pyToLower w
      if nm = "end" then secs1
      else scanAux ls (some nm) "" secs1
    | none =>
      match cur with
      | some _ => scanAux ls cur (buf ++ l) secs
      | none => scanAux ls cur buf secs

/-- The `sections` dict produced by the top-level scan. -/
def scanSections (ls : List String) : List (String × String) :=
  scanAux ls none "" []

/-- The line scan of `PromptEngine._decode_tool_arguments_section`
(prompt.py lines 350-374).  Unlike the top-level scan it flushes the open
field when the input ends. -/
def toolArgsAux : List String → Option String → String → List (String × String) → List (String × String)
  | [], cur, buf, fields =>
    match cur with
    | some c => insertSec fields c (stripStr buf)
    | none => fields
  | l :: ls, cur, buf, fields =>
    match fieldHeaderName l with
    | some w =>
      let fields1 := match cur with
        | some c => insertSec fields c (stripStr buf)
        | none => fields
      toolArgsAux ls (some (pyToLower w)) "" fields1
    | none =>
      match cur with
      | some _ => toolArgsAux ls cur (buf ++ l) fields
      | none => toolArgsAux ls cur buf fields

/-- Field map of `_decode_tool_arguments_section`, at the line level. -/
def toolArgsFieldsOf (ls : List String) : List (String × String) :=
  toolArgsAux ls none "" []

/-- `PromptEngine._decode_tool_arguments_section` on the raw section body. -/
def decodeToolArgumentsStr (s : String) : List (String × String) :=
  toolArgsFieldsOf (pySplitlines s)

/-- Values of the constrained structured-value subset the `data` section is
decoded into (mappings and sequences of scalars). -/
inductive YamlValue where
  | null : YamlValue
  | bool : Bool → YamlValue
  | int : Int → YamlValue
  | str : String → YamlValue
  | seq : List YamlValue → YamlValue
  | map : List (String × YamlValue) → YamlValue

/-- Scalar resolution of the external YAML 1.1 loader on the subset used by
the prompt protocol (null / booleans including yes-no words / integers /
plain strings). -/
def parseScalar (s : String) : YamlValue :=
  let t := stripStr s
  if t == "" || t == "~" || t == "null" || t == "Null" || t == "NULL" then .null
  else if t == "true" || t == "True" || t == "TRUE" || t == "yes" || t == "Yes"
      || t == "YES" || t == "on" || t == "On" || t == "ON" then .bool true
  else if t == "false" || t == "False" || t == "FALSE" || t == "no" || t == "No"
      || t == "NO" || t == "off" || t == "Off" || t == "OFF" then .bool false
  else
    match t.toInt? with
    | some n => .int n
    | none => .str t

/-- Recognizer for a YAML sequence item line (already stripped). -/
def isSeqItem (t : String) : Bool :=
  t.startsWith "- " || t == "-"

/-- Scalar value of a YAML sequence item line (already stripped). -/
def seqItemVal (t : String) : YamlValue :=
  if t == "-" then .null else parseScalar (t.drop 2)

/-- Splits a mapping line at its first colon. -/
def splitFirstColon (t : String) : Option (String × String) :=
  match t.splitOn ":" with
  | [] => none
  | [_] => none
  | k :: rest => some (k, String.intercalate ":" rest)

/-- Collects `key: scalar` lines and `key:` lines followed by `- item`
sequence entries into a mapping. -/
def yamlMapAux : List String → List (String × YamlValue) → Option (List (String × YamlValue))
  | [], acc => some acc.reverse
  | l :: ls, acc =>
    if isSeqItem l then
      match acc with
      | (k, .seq xs) :: acc' => yamlMapAux ls ((k, .seq (xs ++ [seqItemVal l])) :: acc')
      | (k, .null) :: acc' => yamlMapAux ls ((k, .seq [seqItemVal l]) :: acc')
      | _ => none
    else
      match splitFirstColon l with
      | some (k, rest) =>
        if stripStr rest == "" then yamlMapAux ls ((stripStr k, .null) :: acc)
        else yamlMapAux ls ((stripStr k, parseScalar rest) :: acc)
      | none => none

/-- Model of the external `yaml.safe_load` used by
`PromptEngine._decode_data_section` (prompt.py lines 347-348), on the
constrained structured-value subset the spec names for the `data` body:
key/value mappings and sequences of scalars. -/
def yamlSafeLoad (s : String) : YamlValue :=
  let ls := ((s.splitOn "\n").map stripStr).filter (fun l => l != "")
  match ls with
  | [] => .null
  | _ =>
    if ls.all isSeqItem then .seq (ls.map seqItemVal)
    else
      match yamlMapAux ls [] with
      | some kvs => .map kvs
      | none => parseScalar s

/-- Python truthiness of a decoded YAML value. -/
def yamlTruthy : YamlValue → Bool
  | .null => false
  | .bool b => b
  | .int n => n != 0
  | .str s => s != ""
  | .seq xs => !xs.isEmpty
  | .map kvs => !kvs.isEmpty

/-- Python truthiness of an optional YAML value. -/
def yamlOptTruthy : Option YamlValue → Bool
  | none => false
  | some v => yamlTruthy v

/-- Modelled from the spec: the `WorkMode` enum {TASK, CHAT} of
`sweetagent.core`, which is not under `src/`. -/
inductive WorkMode where
  | TASK : WorkMode
  | CHAT : WorkMode
deriving DecidableEq

/-- Modelled from the spec: the `ToolCall` record of `sweetagent.core`
(not under `src/`), with the fields passed by the decoder: name, type
(always "function"), and the decoded flat argument mapping (or `None`). -/
structure ToolCall where
  name : String
  type : String
  arguments : Option (List (String × String))
deriving DecidableEq

/-- Modelled from the spec: the `LLMChatMessage` record of `sweetagent.core`
(not under `src/`), with the fields the decoders construct: role, optional
content, optional decoded data, optional tool-call list, and kind. -/
structure LLMChatMessage where
  role : String
  content : Option String := none
  data : Option YamlValue := none
  tool_calls : Option (List ToolCall) := none
  kind : String := "message"

/-- Python truthiness of an optional string (`None` and `""` are falsy). -/
def strTruthy : Option String → Bool
  | none => false
  | some s => s != ""

/-- The literal corrective instruction of the RetryToFix raised by
`PromptEngine.extract_formatted_llm_response` (prompt.py lines 341-343). -/
def retryToFixFinalAnswer : String :=
  "For kind == final_answer there must be a `message` or `data` section where you put the answer."

/-- Default `kind` by work mode (prompt.py line 329). -/
def defaultKind (mode : WorkMode) : String :=
  if mode = WorkMode.CHAT then "message" else "final_answer"

/-- Normalized `data` value (prompt.py lines 299-300 and 307-308): a present,
non-empty body is parsed; an absent, empty, or falsy-parsing body becomes
`None`. -/
def dataValOf (secs : List (String × String)) : Option YamlValue :=
  match lookupSec secs "data" with
  | some d =>
    if d != "" then
      let v := yamlSafeLoad d
      if yamlTruthy v then some v else none
    else none
  | none => none

/-- Normalized `tool_arguments` value (prompt.py lines 302-305 and 313-314):
a present, non-empty body is sub-scanned; an absent, empty, or
empty-decoding body becomes `None`. -/
def toolArgsValOf (secs : List (String × String)) : Option (List (String × String)) :=
  match lookupSec secs "tool_arguments" with
  | some t =>
    if t != "" then
      let f := decodeToolArgumentsStr t
      if !f.isEmpty then some f else none
    else none
  | none => none

/-- Normalized `tool_name` value (prompt.py lines 310-311). -/
def toolNameOf (secs : List (String × String)) : Option String :=
  match lookupSec secs "tool_name" with
  | some n => if n != "" then some n else none
  | none => none

/-- Resolved `kind` (prompt.py lines 327-330): the section body if truthy,
else the work-mode default, lower-cased. -/
def resolvedKind (mode : WorkMode) (secs : List (String × String)) : String :=
  pyToLower (match lookupSec secs "kind" with
   | some k => if k != "" then k else defaultKind mode
   | none => defaultKind mode)

/-- The `tool_calls` field (prompt.py lines 318-325 and 336): a singleton
list around the constructed ToolCall when `tool_name` is truthy, else
`None`. -/
def toolCallsOf (secs : List (String × String)) : Option (List ToolCall) :=
  match toolNameOf secs with
  | some n => some [⟨n, "function", toolArgsValOf secs⟩]
  | none => none

/-- The message built by `PromptEngine.extract_formatted_llm_response`
before validation (prompt.py lines 332-338).  The `thought` section is
popped before the message is built and is read by nothing here. -/
def builtMessage (mode : WorkMode) (secs : List (String × String)) : LLMChatMessage :=
  { role := "assistant"
    content := lookupSec secs "message"
    data := dataValOf secs
    tool_calls := toolCallsOf secs
    kind := resolvedKind mode secs }

/-- Post-scan construction and validation of
`PromptEngine.extract_formatted_llm_response` (prompt.py lines 299-345).
A `RetryToFix` is modelled as `Except.error` carrying its corrective
text. -/
def buildResponse (mode : WorkMode) (secs : List (String × String)) :
    Except String LLMChatMessage :=
  let res := builtMessage mode secs
  if res.kind = "final_answer" && !(strTruthy res.content || yamlOptTruthy res.data) then
    .error retryToFixFinalAnswer
  else
    .ok res

/-- `PromptEngine.extract_formatted_llm_response` on a pre-split line list. -/
def extractFromLines (mode : WorkMode) (ls : List String) : Except String LLMChatMessage :=
  buildResponse mode (scanSections ls)

/-- `PromptEngine.extract_formatted_llm_response` (prompt.py lines 274-345). -/
def extract_formatted_llm_response (mode : WorkMode) (text : String) :
    Except String LLMChatMessage :=
  extractFromLines mode (pySplitlines text)

/-- `SimplePromptEngine.extract_formatted_llm_response`
(prompt.py lines 72-77): the freeform strategy. -/
def simple_extract_formatted_llm_response (mode : WorkMode) (text : String) : LLMChatMessage :=
  { role := "assistant"
    content := some text
    kind := if mode = WorkMode.CHAT then "message" else "final_answer" }

/-- A transition dict as built by `BaseState.add_transition`
(prompt.py lines 405-421): each key is present only when the argument is
truthy, so `transition.get` yields `none` exactly when the field was absent. -/
structure Transition where
  event : Option String
  condition : Option String
  action : Option String
  next_state : Option String
deriving DecidableEq

/-- Python truthiness filter applied by `add_transition` before storing a
field. -/
def truthyOpt : Option String → Option String
  | some s => if s == "" then none else some s
  | none => none

/-- `BaseState.add_transition` (prompt.py lines 405-421). -/
def add_transition (event condition action next_state : Option String) : Transition :=
  ⟨truthyOpt event, truthyOpt condition, truthyOpt action, truthyOpt next_state⟩

/-- `BaseState` (prompt.py lines 390-403): a named state with optional
entry/do/exit actions and a transition list.  `do` is a Lean keyword, so the
field is spelled `do_`. -/
structure BaseState where
  name : String
  entry : Option String := none
  do_ : Option String := none
  _exit : Option String := none
  transitions : List Transition := []

/-- `BaseState.build_decl` (prompt.py lines 430-443). -/
def build_decl (s : BaseState) : String :=
  let res := "state " ++ s.name
  if strTruthy s.do_ || strTruthy s.entry || strTruthy s._exit then
    let res1 := res ++ " \x7b"
    let res2 := if strTruthy s.entry then res1 ++ "\n  entry / " ++ s.entry.getD "" ++ "()" else res1
    let res3 := if strTruthy s.do_ then res2 ++ "\n  do / " ++ s.do_.getD "" ++ "()" else res2
    let res4 := if strTruthy s._exit then res3 ++ "\n  exit / " ++ s._exit.getD "" else res3
    res4 ++ "\n\x7d"
  else res

/-- `BaseState.build_single_transition` (prompt.py lines 445-460). -/
def build_single_transition (s : BaseState) (t : Transition) : String :=
  let res := s.name ++ " "
  let res1 := if strTruthy t.next_state then res ++ "--> " ++ t.next_state.getD "" ++ " " else res
  let res2 := if strTruthy t.event then res1 ++ ": " ++ t.event.getD "" ++ " " else res1
  let res3 := if strTruthy t.condition then res2 ++ "[" ++ t.condition.getD "" ++ "] " else res2
  if strTruthy t.action then res3 ++ "/ " ++ t.action.getD "" else res3

/-- `BaseState.build_multiple_transitions` (prompt.py lines 462-466). -/
def build_multiple_transitions (s : BaseState) : String :=
  s.transitions.foldl (fun acc t => acc ++ build_single_transition s t ++ "\n") ""

/-- `BaseState.to_string` (prompt.py lines 423-428). -/
def to_string (s : BaseState) : String :=
  let res := build_decl s
  let transs := build_multiple_transitions s
  if transs = "" then res else res ++ "\n\n" ++ transs

/-- Helper for `re.split(r"\++", text)`: `cur` is the current segment in
reverse, `acc` the completed segments in reverse order, `inRun` whether the
previous character was a `+` (so that a whole run produces one split). -/
def splitPlusAux : List Char → List Char → List (List Char) → Bool → List (List Char)
  | [], cur, acc, _ => (cur.reverse :: acc).reverse
  | c :: rest, cur, acc, inRun =>
    if c == '+' then
      if inRun then splitPlusAux rest cur acc true
      else splitPlusAux rest [] (cur.reverse :: acc) true
    else splitPlusAux rest (c :: cur) acc false

/-- `FSMPromptEngine.rgx_plus.split(text_response)` (prompt.py line 492 and
542): splits at every maximal run of `+`. -/
def splitPlusRuns (l : List Char) : List (List Char) :=
  splitPlusAux l [] [] false

/-- `parts[0]` of the plus-run split (the split list is never empty). -/
def firstPart (ps : List (List Char)) : List Char :=
  ps.headD []

/-- `parts[-1]` of the plus-run split. -/
def lastPart (ps : List (List Char)) : List Char :=
  ps.getLast?.getD []

/-- `FSMPromptEngine.extract_formatted_llm_response`
(prompt.py lines 541-548), parameterized by `self.end_state.name`. -/
def fsmExtract (endName : String) (text : String) : LLMChatMessage :=
  let parts := splitPlusRuns text.data
  let current_state := String.mk (pyStripL (lastPart parts))
  { role := "assistant"
    content := some (String.mk (pyStripL (firstPart parts)))
    kind := if endName ≠ current_state then "message" else "final_answer" }

/-- Spec-side characterization: the segment of `l` before its first maximal
run of `+` (the whole list when there is no `+`). -/
def firstSeg (l : List Char) : List Char :=
  l.takeWhile (· != '+')

/-- Spec-side characterization: the segment of `l` after its last maximal
run of `+` (the whole list when there is no `+`). -/
def lastSeg (l : List Char) : List Char :=
  (l.reverse.takeWhile (· != '+')).reverse

/-- Defined from the claim's words (for comparison with the source): the
asserted state under a split at the FIRST maximal run of `+` only — the
final segment of that two-way split, trimmed. -/
def specAssertedStateFirstRun (text : String) : String :=
  String.mk (pyStripL ((text.data.dropWhile (· != '+')).dropWhile (· == '+')))

/-- Defined from the claim's words: the kind that would result if the
asserted state were taken from a split at the first maximal run only. -/
def specKindFirstRun (endName : String) (text : String) : String :=
  if endName ≠ specAssertedStateFirstRun text then "message" else "final_answer"

/-- The reasoning-closing marker of `LLMClient.complete`
(llm_client.py line 87). -/
def thinkClose : List Char :=
  "</think>".data

/-- Splits a character list at the first occurrence of `pat`: returns the
part strictly before and strictly after the occurrence, or `none` when `pat`
does not occur. -/
def firstSplit (pat : List Char) : List Char → Option (List Char × List Char)
  | [] => if pat.isEmpty then some ([], []) else none
  | c :: rest =>
    if pat.isPrefixOf (c :: rest) then some ([], (c :: rest).drop pat.length)
    else
      match firstSplit pat rest with
      | some (p, t) => some (c :: p, t)
      | none => none

/-- Substring containment, via the first-occurrence split. -/
def containsSub (needle hay : List Char) : Bool :=
  (firstSplit needle hay).isSome

/-- `content.split("</think>", maxsplit=1)` followed by keeping the last
part (llm_client.py lines 87-91): the text strictly after the first marker,
or the whole text when the marker is absent. -/
def stripThink (s : String) : String :=
  match firstSplit thinkClose s.data with
  | none => s
  | some (_, post) => String.mk post

/-- Post-receipt content normalization of `LLMClient.complete`
(llm_client.py lines 86-93): applied only when the content is truthy. -/
def postReceive (m : LLMChatMessage) : LLMChatMessage :=
  match m.content with
  | some c => if c != "" then { m with content := some (stripThink c) } else m
  | none => m

/-- Modelled from the spec: `RotatingList` of `sweetagent.core` (not under
`src/`) — the spec's RotatingCredentialSet: an ordered credential sequence
with a cyclic mutable cursor; `max_iter` is the sequence length and
`max_iter` consecutive `next()` calls return the cursor to its origin. -/
structure RotatingList (α : Type) where
  items : List α
  cursor : Nat

/-- Modelled from the spec: `max_iter` is the size of the credential set. -/
def RotatingList.max_iter (r : RotatingList α) : Nat :=
  r.items.length

/-- Modelled from the spec: the credential under the cursor. -/
def RotatingList.current (r : RotatingList α) : Option α :=
  r.items.get? (r.cursor % r.items.length)

/-- Modelled from the spec: advance the cursor cyclically. -/
def RotatingList.next (r : RotatingList α) : RotatingList α :=
  { r with cursor := (r.cursor + 1) % r.items.length }

/-- Outcome of one call to the external completion transport: a response,
a rate-limit error (`RateLimitError`), or any other exception. -/
inductive AttemptOutcome (ρ : Type) where
  | ok : ρ → AttemptOutcome ρ
  | rateLimited : String → AttemptOutcome ρ
  | fatal : String → AttemptOutcome ρ

/-- Failure outcome of the retry loop: `exhausted` models the `else: raise
last_error` branch after the `for` range is spent (carrying the last
rate-limit error, or `none` when no attempt was ever made); `fatal` models a
non-rate-limit exception propagating out of the loop at once. -/
inductive CompleteError where
  | exhausted : Option String → CompleteError
  | fatal : String → CompleteError
deriving DecidableEq

/-- The retry loop of `LLMClient.complete` (llm_client.py lines 59-81).
`f i` is the transport's outcome at the i-th sequential call, `n` the
remaining iterations of `range(max_iter)`, `i` the attempt counter, `rot`
the credential rotator, `lastErr` the `last_error` variable.  Returns the
loop outcome, the final rotator state, and how many attempts were made. -/
def completeLoopAux (f : Nat → AttemptOutcome ρ) :
    Nat → Nat → RotatingList α → Option String →
    Except CompleteError ρ × RotatingList α × Nat
  | 0, i, rot, lastErr => (.error (.exhausted lastErr), rot, i)
  | n + 1, i, rot, _lastErr =>
    match f i with
    | .ok r => (.ok r, rot, i + 1)
    | .rateLimited e => completeLoopAux f n (i + 1) rot.next (some e)
    | .fatal e => (.error (.fatal e), rot, i + 1)

/-- The full retry loop of `LLMClient.complete`: up to `max_iter` attempts
starting from the rotator's current state. -/
def completeLoop (f : Nat → AttemptOutcome ρ) (rot : RotatingList α) :
    Except CompleteError ρ × RotatingList α × Nat :=
  completeLoopAux f rot.max_iter 0 rot none

/-- The rendered simple-message worked example embedded in the explicit
protocol prompt (`PromptEngine.response_simple_message_template`,
prompt.py lines 120-129, rendered with `native_thought = False`). -/
def responseSimpleMessageExample : String :=
  "+++ thought +++\nThe user is asking for ... so i will send him a message\n+++ kind +++\nmessage\n+++ message +++\nYour real message here\n+++ end +++"

/-- The rendered tool-call worked example embedded in the explicit protocol
prompt (`PromptEngine.response_tool_call_template`, prompt.py lines 157-174,
rendered with `native_thought = False`). -/
def responseToolCallExample : String :=
  "+++ thought +++\nThe user wants to know the max credit he can have. His username is john and age is 30.\nThere is a tool get_user_max_credit. I will use this tool to get the max credit.\n+++ kind +++\ntool_call\n+++ tool_name +++\nget_user_max_credit\n+++ tool_arguments +++\n~~~ username ~~~\njohn\n\n~~~ age ~~~\n30\n\n+++ end +++"

/-! ### Helper lemmas about the decoder pipeline -/

theorem buildResponse_error_of (mode : WorkMode) (secs : List (String × String))
    (h1 : resolvedKind mode secs = "final_answer")
    (h2 : strTruthy (lookupSec secs "message") = false)
    (h3 : dataValOf secs = none) :
    buildResponse mode secs = .error retryToFixFinalAnswer := by
  simp [buildResponse, builtMessage, h1, h2, h3, yamlOptTruthy]

theorem buildResponse_ok_of (mode : WorkMode) (secs : List (String × String))
    (hc : strTruthy (lookupSec secs "message") = true) :
    buildResponse mode secs = .ok (builtMessage mode secs) := by
  simp [buildResponse, builtMessage, hc]

theorem extract_ok_elim (mode : WorkMode) (text : String) (res : LLMChatMessage)
    (hok : extract_formatted_llm_response mode text = .ok res) :
    res = builtMessage mode (scanSections (pySplitlines text)) := by
  simp only [extract_formatted_llm_response, extractFromLines, buildResponse] at hok
  split at hok
  · exact absurd hok (by simp)
  · injection hok with h
    exact h.symm

/-- C1: if the resolved kind is `final_answer` and both the content and the
data of the resulting message are empty, decoding fails with RetryToFix
carrying the literal corrective instruction; and a response whose `message`
section is non-empty decodes successfully without raising. -/
theorem C1_final_answer_validation (mode : WorkMode) (text : String) :
    (resolvedKind mode (scanSections (pySplitlines text)) = "final_answer" →
      strTruthy (lookupSec (scanSections (pySplitlines text)) "message") = false →
      dataValOf (scanSections (pySplitlines text)) = none →
      extract_formatted_llm_response mode text = .error retryToFixFinalAnswer) ∧
    (∀ m : String, lookupSec (scanSections (pySplitlines text)) "message" = some m → m ≠ "" →
      extract_formatted_llm_response mode text =
        .ok (builtMessage mode (scanSections (pySplitlines text)))) := by
  constructor
  · intro h1 h2 h3
    exact buildResponse_error_of mode _ h1 h2 h3
  · intro m hm hne
    have hc : strTruthy (lookupSec (scanSections (pySplitlines text)) "message") = true := by
      rw [hm]
      simp [strTruthy, hne]
    exact buildResponse_ok_of mode _ hc

/-- Witness for C1 at concrete responses: a `final_answer` response with
empty message and data sections raises, the same response with a non-empty
message section decodes. -/
theorem C1_final_answer_validation_witness :
    extract_formatted_llm_response WorkMode.TASK
        "+++ kind +++\nfinal_answer\n+++ message +++\n\n+++ data +++\n\n+++ end +++" =
      .error retryToFixFinalAnswer ∧
    extract_formatted_llm_response WorkMode.TASK
        "+++ kind +++\nfinal_answer\n+++ message +++\nHello there\n+++ end +++" =
      .ok (builtMessage WorkMode.TASK (scanSections (pySplitlines
        "+++ kind +++\nfinal_answer\n+++ message +++\nHello there\n+++ end +++"))) :=
  ⟨(C1_final_answer_validation WorkMode.TASK
      "+++ kind +++\nfinal_answer\n+++ message +++\n\n+++ data +++\n\n+++ end +++").1
     (by rfl) (by rfl) (by rfl),
   (C1_final_answer_validation WorkMode.TASK
      "+++ kind +++\nfinal_answer\n+++ message +++\nHello there\n+++ end +++").2
     "Hello there" (by rfl) (by decide)⟩

/-- C4: when the `kind` section is absent the resulting kind is `message`
in CHAT mode and `final_answer` in TASK mode, both for the explicit
protocol decoder and, unconditionally, for the freeform decoder. -/
theorem C4_kind_default (mode : WorkMode) (text : String) (res : LLMChatMessage) :
    (lookupSec (scanSections (pySplitlines text)) "kind" = none →
      extract_formatted_llm_response mode text = .ok res →
      res.kind = if mode = WorkMode.CHAT then "message" else "final_answer") ∧
    (simple_extract_formatted_llm_response mode text).kind =
      (if mode = WorkMode.CHAT then "message" else "final_answer") := by
  constructor
  · intro hk hok
    rw [extract_ok_elim mode text res hok]
    show resolvedKind mode (scanSections (pySplitlines text)) = _
    unfold resolvedKind
    rw [hk]
    cases mode <;> decide
  · rfl

/-- Witness for C4 at a concrete CHAT-mode response with no kind section. -/
theorem C4_kind_default_witness :
    (builtMessage WorkMode.CHAT (scanSections (pySplitlines
      "+++ message +++\nhi\n+++ end +++"))).kind = "message" := by
  have h := (C4_kind_default WorkMode.CHAT "+++ message +++\nhi\n+++ end +++"
    (builtMessage WorkMode.CHAT (scanSections (pySplitlines
      "+++ message +++\nhi\n+++ end +++")))).1 rfl rfl
  simpa using h

/-- C5: absent or empty `data`, `tool_name`, `tool_arguments` sections
normalize to an explicit absent value in the resulting message (never an
empty string or empty mapping), and a present data value is the parse of a
non-empty data body. -/
theorem C5_absent_normalizes (mode : WorkMode) (text : String) (res : LLMChatMessage)
    (hok : extract_formatted_llm_response mode text = .ok res) :
    ((lookupSec (scanSections (pySplitlines text)) "data" = none ∨
      lookupSec (scanSections (pySplitlines text)) "data" = some "") → res.data = none) ∧
    ((lookupSec (scanSections (pySplitlines text)) "tool_name" = none ∨
      lookupSec (scanSections (pySplitlines text)) "tool_name" = some "") →
      res.tool_calls = none) ∧
    ((lookupSec (scanSections (pySplitlines text)) "tool_arguments" = none ∨
      lookupSec (scanSections (pySplitlines text)) "tool_arguments" = some "") →
      ∀ tcs, res.tool_calls = some tcs → ∀ tc ∈ tcs, tc.arguments = none) ∧
    (∀ v, res.data = some v →
      ∃ d, lookupSec (scanSections (pySplitlines text)) "data" = some d ∧
        d ≠ "" ∧ v = yamlSafeLoad d) := by
  have hres := extract_ok_elim mode text res hok
  subst hres
  refine ⟨?_, ?_, ?_, ?_⟩
  · rintro (h | h) <;> simp [builtMessage, dataValOf, h]
  · rintro (h | h) <;> simp [builtMessage, toolCallsOf, toolNameOf, h]
  · intro hta tcs htcs tc htc
    have hargs : toolArgsValOf (scanSections (pySplitlines text)) = none := by
      rcases hta with h | h <;> simp [toolArgsValOf, h]
    simp only [builtMessage] at htcs
    unfold toolCallsOf at htcs
    rcases hn : toolNameOf (scanSections (pySplitlines text)) with _ | n <;> rw [hn] at htcs
    · simp at htcs
    · injection htcs with h2
      subst h2
      simp only [List.mem_singleton] at htc
      subst htc
      simp [hargs]
  · intro v hv
    simp only [builtMessage] at hv
    unfold dataValOf at hv
    rcases hd : lookupSec (scanSections (pySplitlines text)) "data" with _ | d <;> rw [hd] at hv
    · simp at hv
    · by_cases hde : d = ""
      · subst hde
        simp at hv
      · refine ⟨d, rfl, hde, ?_⟩
        dsimp only at hv
        rw [if_pos (show (d != "") = true by simp [hde])] at hv
        split at hv
        · injection hv with h
          exact h.symm
        · exact absurd hv (by simp)

/-- Witness for C5 at a concrete response with none of the three sections
present. -/
theorem C5_absent_normalizes_witness :
    (builtMessage WorkMode.CHAT (scanSections (pySplitlines
      "+++ message +++\nhi\n+++ end +++"))).data = none ∧
    (builtMessage WorkMode.CHAT (scanSections (pySplitlines
      "+++ message +++\nhi\n+++ end +++"))).tool_calls = none := by
  have h := C5_absent_normalizes WorkMode.CHAT "+++ message +++\nhi\n+++ end +++"
    (builtMessage WorkMode.CHAT (scanSections (pySplitlines
      "+++ message +++\nhi\n+++ end +++"))) rfl
  exact ⟨h.1 (Or.inl rfl), h.2.1 (Or.inl rfl)⟩

/-- The AskName state of the spec's serialization example: one transition
with event `name_provided` to next state `AskAge`. -/
def askNameState : BaseState :=
  { name := "AskName"
    transitions := [add_transition (some "name_provided") none none (some "AskAge")] }

/-- C9: the AskName state serializes to text containing the fragment
`AskName --> AskAge : name_provided`, and a state with no entry/do/exit and
no transitions serializes to exactly `state <name>`. -/
theorem C9_state_serialization :
    containsSub ("AskName --> AskAge : name_provided".data)
      (to_string askNameState).data = true ∧
    ∀ name : String, to_string { name := name } = "state " ++ name := by
  exact ⟨rfl, fun name => rfl⟩

/-- C6 counterexample: decoding the rendered tool-call example embedded in
the prompt yields arguments `{username: john, age: 30}`, not the
`{city: Douala}` the claim states (that example exists only in the test
suite, not in the prompt). -/
theorem C6_roundtrip_cex :
    ((extract_formatted_llm_response WorkMode.TASK responseToolCallExample).toOption.bind
        (fun r => r.tool_calls)) =
      some [⟨"get_user_max_credit", "function",
        some [("username", "john"), ("age", "30")]⟩] ∧
    (some [("username", "john"), ("age", "30")] : Option (List (String × String))) ≠
      some [("city", "Douala")] :=
  ⟨rfl, by decide⟩

/-- C6 amended: decoding the rendered simple-message example yields kind
`message` with the example's message text as content, and decoding the
rendered tool-call example yields a ToolCall named `get_user_max_credit`
with arguments exactly `{username: john, age: 30}`. -/
theorem C6_roundtrip_amended :
    extract_formatted_llm_response WorkMode.TASK responseSimpleMessageExample =
      .ok { role := "assistant", content := some "Your real message here", data := none,
            tool_calls := none, kind := "message" } ∧
    extract_formatted_llm_response WorkMode.TASK responseToolCallExample =
      .ok { role := "assistant", content := none, data := none,
            tool_calls := some [⟨"get_user_max_credit", "function",
              some [("username", "john"), ("age", "30")]⟩],
            kind := "tool_call" } :=
  ⟨rfl, rfl⟩

/-! ### C10: trailing open sections -/

/-- Accumulation of body lines onto an open section buffer. -/
def joinFrom (buf : String) (ls : List String) : String :=
  ls.foldl (fun a l => a ++ l) buf

theorem scanAux_no_header (bs : List String) (hbs : ∀ l ∈ bs, headerName l = none) :
    ∀ (cur : Option String) (buf : String) (secs : List (String × String)),
      scanAux bs cur buf secs = secs := by
  induction bs with
  | nil => intro cur buf secs; rfl
  | cons l ls ih =>
    intro cur buf secs
    have hl : headerName l = none := hbs l (by simp)
    have hls : ∀ x ∈ ls, headerName x = none := fun x hx => hbs x (by simp [hx])
    simp only [scanAux, hl]
    cases cur <;> exact ih hls _ _ _

theorem toolArgsAux_open_keeps (cs : List String)
    (hcs : ∀ l ∈ cs, fieldHeaderName l = none) :
    ∀ (c : String) (buf : String) (fields : List (String × String)),
      toolArgsAux cs (some c) buf fields = insertSec fields c (stripStr (joinFrom buf cs)) := by
  induction cs with
  | nil => intro c buf fields; rfl
  | cons l ls ih =>
    intro c buf fields
    have hl : fieldHeaderName l = none := hcs l (by simp)
    have hls : ∀ x ∈ ls, fieldHeaderName x = none := fun x hx => hcs x (by simp [hx])
    simp only [toolArgsAux, hl]
    exact ih hls c (buf ++ l) fields

theorem scanAux_trailing_discards (hdrLine w : String) (bs : List String)
    (hw : headerName hdrLine = some w) (hend : pyToLower w ≠ "end")
    (hbs : ∀ l ∈ bs, headerName l = none) :
    ∀ (pre : List String) (cur : Option String) (buf : String)
      (secs : List (String × String)),
      scanAux (pre ++ hdrLine :: bs) cur buf secs = scanAux (pre ++ [hdrLine]) cur buf secs := by
  intro pre
  induction pre with
  | nil =>
    intro cur buf secs
    simp only [List.nil_append, scanAux, hw, if_neg hend]
    exact scanAux_no_header bs hbs _ _ _
  | cons l pre ih =>
    intro cur buf secs
    rcases hl : headerName l with _ | w'
    · simp only [List.cons_append, scanAux, hl]
      cases cur <;> exact ih _ _ _
    · simp only [List.cons_append, scanAux, hl]
      by_cases hw' : pyToLower w' = "end"
      · rw [if_pos hw', if_pos hw']
      · rw [if_neg hw', if_neg hw']
        exact ih _ _ _

/-- C10: when the last recognized header is not `end`, the top-level scan
discards the whole trailing open section (bodies after the last header do
not change the result, and a lone open section yields no sections at all),
whereas the tool-arguments sub-scan stores the final open field's trimmed
body even when the input ends without a further header. -/
theorem C10_trailing_open_section (w fw hdrLine fhdrLine : String)
    (pre bs cs : List String) :
    (headerName hdrLine = some w → pyToLower w ≠ "end" →
      (∀ l ∈ bs, headerName l = none) →
      scanSections (pre ++ hdrLine :: bs) = scanSections (pre ++ [hdrLine]) ∧
      scanSections (hdrLine :: bs) = []) ∧
    (fieldHeaderName fhdrLine = some fw →
      (∀ l ∈ cs, fieldHeaderName l = none) →
      toolArgsFieldsOf (fhdrLine :: cs) = [(pyToLower fw, stripStr (joinFrom "" cs))]) := by
  constructor
  · intro hw hend hbs
    constructor
    · exact scanAux_trailing_discards hdrLine w bs hw hend hbs pre none "" []
    · show scanAux (hdrLine :: bs) none "" [] = []
      simp only [scanAux, hw, if_neg hend]
      exact scanAux_no_header bs hbs _ _ _
  · intro hfw hcs
    show toolArgsAux (fhdrLine :: cs) none "" [] = _
    simp only [toolArgsAux, hfw]
    exact toolArgsAux_open_keeps cs hcs _ "" []

/-- Witness for C10: a single open `message` section with a body line is
absent from the top-level result, while the sub-scan keeps the open field. -/
theorem C10_trailing_open_section_witness :
    scanSections ["+++ message +++\n", "body\n"] = [] ∧
    toolArgsFieldsOf ["~~~ f ~~~\n", "body\n"] = [("f", "body")] := by
  have h := C10_trailing_open_section "message" "f" "+++ message +++\n" "~~~ f ~~~\n"
    [] ["body\n"] ["body\n"]
  constructor
  · exact (h.1 (by rfl) (by decide) (by decide)).2
  · exact (h.2 (by rfl) (by decide)).trans (by rfl)

/-! ### C2: the completion retry loop -/

theorem completeLoopAux_attempts_le (f : Nat → AttemptOutcome ρ) :
    ∀ (n i : Nat) (rot : RotatingList α) (last : Option String),
      (completeLoopAux f n i rot last).2.2 ≤ i + n := by
  intro n
  induction n with
  | zero => intro i rot last; simp [completeLoopAux]
  | succ n ih =>
    intro i rot last
    simp only [completeLoopAux]
    cases hfi : f i with
    | ok r => simp
    | rateLimited e =>
      have h := ih (i + 1) rot.next (some e)
      show (completeLoopAux f n (i + 1) rot.next (some e)).2.2 ≤ i + (n + 1)
      omega
    | fatal e => simp

theorem completeLoopAux_all_rate (f : Nat → AttemptOutcome ρ) (es : Nat → String) :
    ∀ (n i : Nat) (rot : RotatingList α) (last : Option String),
      1 ≤ n → (∀ m, m < n → f (i + m) = .rateLimited (es (i + m))) →
      completeLoopAux f n i rot last =
        (.error (.exhausted (some (es (i + n - 1)))), RotatingList.next^[n] rot, i + n) := by
  intro n
  induction n with
  | zero => intro i rot last h; omega
  | succ n ih =>
    intro i rot last _ hall
    have h0 : f i = .rateLimited (es i) := by simpa using hall 0 (by omega)
    simp only [completeLoopAux, h0]
    cases Nat.eq_zero_or_pos n with
    | inl h =>
      subst h
      simp [completeLoopAux, Function.iterate_one]
    | inr h =>
      have hall' : ∀ m, m < n → f (i + 1 + m) = .rateLimited (es (i + 1 + m)) := by
        intro m hm
        have := hall (m + 1) (by omega)
        rwa [show i + (m + 1) = i + 1 + m from by omega] at this
      rw [ih (i + 1) rot.next (some (es i)) h hall',
        show i + 1 + n - 1 = i + (n + 1) - 1 from by omega,
        show i + 1 + n = i + (n + 1) from by omega,
        ← Function.iterate_succ_apply]

theorem completeLoopAux_success_at (f : Nat → AttemptOutcome ρ) (es : Nat → String) (r : ρ) :
    ∀ (k n i : Nat) (rot : RotatingList α) (last : Option String),
      k < n → (∀ m, m < k → f (i + m) = .rateLimited (es (i + m))) → f (i + k) = .ok r →
      completeLoopAux f n i rot last = (.ok r, RotatingList.next^[k] rot, i + k + 1) := by
  intro k
  induction k with
  | zero =>
    intro n i rot last hk hall hok
    obtain ⟨n', rfl⟩ : ∃ n', n = n' + 1 := ⟨n - 1, by omega⟩
    have hok' : f i = .ok r := hok
    simp [completeLoopAux, hok']
  | succ k ih =>
    intro n i rot last hk hall hok
    obtain ⟨n', rfl⟩ : ∃ n', n = n' + 1 := ⟨n - 1, by omega⟩
    have h0 : f i = .rateLimited (es i) := by simpa using hall 0 (by omega)
    simp only [completeLoopAux, h0]
    have hall' : ∀ m, m < k → f (i + 1 + m) = .rateLimited (es (i + 1 + m)) := by
      intro m hm
      have := hall (m + 1) (by omega)
      rwa [show i + (m + 1) = i + 1 + m from by omega] at this
    have hok' : f (i + 1 + k) = .ok r := by
      rwa [show i + (k + 1) = i + 1 + k from by omega] at hok
    rw [ih n' (i + 1) rot.next (some (es i)) (by omega) hall' hok',
      show i + 1 + k + 1 = i + (k + 1) + 1 from by omega,
      ← Function.iterate_succ_apply]

theorem completeLoopAux_fatal_at (f : Nat → AttemptOutcome ρ) (es : Nat → String) (e : String) :
    ∀ (k n i : Nat) (rot : RotatingList α) (last : Option String),
      k < n → (∀ m, m < k → f (i + m) = .rateLimited (es (i + m))) → f (i + k) = .fatal e →
      completeLoopAux f n i rot last =
        (.error (.fatal e), RotatingList.next^[k] rot, i + k + 1) := by
  intro k
  induction k with
  | zero =>
    intro n i rot last hk hall hfe
    obtain ⟨n', rfl⟩ : ∃ n', n = n' + 1 := ⟨n - 1, by omega⟩
    have hfe' : f i = .fatal e := hfe
    simp [completeLoopAux, hfe']
  | succ k ih =>
    intro n i rot last hk hall hfe
    obtain ⟨n', rfl⟩ : ∃ n', n = n' + 1 := ⟨n - 1, by omega⟩
    have h0 : f i = .rateLimited (es i) := by simpa using hall 0 (by omega)
    simp only [completeLoopAux, h0]
    have hall' : ∀ m, m < k → f (i + 1 + m) = .rateLimited (es (i + 1 + m)) := by
      intro m hm
      have := hall (m + 1) (by omega)
      rwa [show i + (m + 1) = i + 1 + m from by omega] at this
    have hfe' : f (i + 1 + k) = .fatal e := by
      rwa [show i + (k + 1) = i + 1 + k from by omega] at hfe
    rw [ih n' (i + 1) rot.next (some (es i)) (by omega) hall' hfe',
      show i + 1 + k + 1 = i + (k + 1) + 1 from by omega,
      ← Function.iterate_succ_apply]

theorem RotatingList.items_iterate (rot : RotatingList α) :
    ∀ j, (RotatingList.next^[j] rot).items = rot.items := by
  intro j
  induction j with
  | zero => rfl
  | succ j ih =>
    rw [Function.iterate_succ_apply']
    simp [RotatingList.next, ih]

theorem RotatingList.cursor_iterate (rot : RotatingList α) (h0 : rot.cursor = 0) :
    ∀ j, j < rot.items.length → (RotatingList.next^[j] rot).cursor = j := by
  intro j
  induction j with
  | zero => intro _; simpa using h0
  | succ j ih =>
    intro hj
    rw [Function.iterate_succ_apply']
    simp only [RotatingList.next]
    rw [RotatingList.items_iterate, ih (by omega)]
    exact Nat.mod_eq_of_lt (by omega)

/-- C2: the retry loop makes at most `max_iter` attempts; when every attempt
is rate-limited it makes exactly `max_iter` attempts, advances the cursor
once per failure (one full rotation) and propagates the last rate-limit
error; when the attempt at index k succeeds it makes exactly k+1 attempts
and the cursor rests on the (k+1)-th credential; a non-rate-limit failure
aborts the loop immediately after its attempt. -/
theorem C2_retry_loop (f : Nat → AttemptOutcome ρ) (rot : RotatingList α)
    (es : Nat → String) (k : Nat) (r : ρ) (e : String) :
    ((completeLoop f rot).2.2 ≤ rot.max_iter) ∧
    (1 ≤ rot.max_iter → (∀ i, i < rot.max_iter → f i = .rateLimited (es i)) →
      completeLoop f rot =
        (.error (.exhausted (some (es (rot.max_iter - 1)))),
         RotatingList.next^[rot.max_iter] rot, rot.max_iter)) ∧
    (k < rot.max_iter → (∀ i, i < k → f i = .rateLimited (es i)) → f k = .ok r →
      completeLoop f rot = (.ok r, RotatingList.next^[k] rot, k + 1) ∧
      (rot.cursor = 0 → (RotatingList.next^[k] rot).current = rot.items.get? k)) ∧
    (k < rot.max_iter → (∀ i, i < k → f i = .rateLimited (es i)) → f k = .fatal e →
      completeLoop f rot = (.error (.fatal e), RotatingList.next^[k] rot, k + 1)) := by
  refine ⟨?_, ?_, ?_, ?_⟩
  · have h := completeLoopAux_attempts_le f rot.max_iter 0 rot none
    simpa [completeLoop] using h
  · intro hN hall
    have hall' : ∀ m, m < rot.max_iter → f (0 + m) = .rateLimited (es (0 + m)) := by
      intro m hm
      simpa [Nat.zero_add] using hall m hm
    have h := completeLoopAux_all_rate f es rot.max_iter 0 rot none hN hall'
    simpa [completeLoop, Nat.zero_add] using h
  · intro hk hall hok
    have hall' : ∀ m, m < k → f (0 + m) = .rateLimited (es (0 + m)) := by
      intro m hm
      simpa [Nat.zero_add] using hall m hm
    have hok' : f (0 + k) = .ok r := by simpa [Nat.zero_add] using hok
    constructor
    · have h := completeLoopAux_success_at f es r k rot.max_iter 0 rot none hk hall' hok'
      simpa [completeLoop, Nat.zero_add] using h
    · intro h0
      have hcur := RotatingList.cursor_iterate rot h0 k hk
      simp only [RotatingList.current, RotatingList.items_iterate, hcur]
      rw [Nat.mod_eq_of_lt (show k < rot.items.length from hk)]
  · intro hk hall hfe
    have hall' : ∀ m, m < k → f (0 + m) = .rateLimited (es (0 + m)) := by
      intro m hm
      simpa [Nat.zero_add] using hall m hm
    have hfe' : f (0 + k) = .fatal e := by simpa [Nat.zero_add] using hfe
    have h := completeLoopAux_fatal_at f es e k rot.max_iter 0 rot none hk hall' hfe'
    simpa [completeLoop, Nat.zero_add] using h

/-- Witness for C2 at a two-credential set where every attempt is
rate-limited: two attempts, the error propagates, the cursor completes one
full rotation. -/
theorem C2_retry_loop_witness :
    completeLoop (fun _ => (AttemptOutcome.rateLimited "rl" : AttemptOutcome Nat))
        (⟨["k1", "k2"], 0⟩ : RotatingList String) =
      (.error (.exhausted (some "rl")),
       RotatingList.next^[2] (⟨["k1", "k2"], 0⟩ : RotatingList String), 2) := by
  have h := (C2_retry_loop (fun _ => (AttemptOutcome.rateLimited "rl" : AttemptOutcome Nat))
      (⟨["k1", "k2"], 0⟩ : RotatingList String) (fun _ => "rl") 0 0 "e").2.1
    (by decide) (fun i _ => rfl)
  exact h

/-! ### C7: post-receipt reasoning-marker stripping -/

theorem firstSplit_eq_append (pat : List Char) :
    ∀ (s p t : List Char), firstSplit pat s = some (p, t) → s = p ++ pat ++ t := by
  intro s
  induction s with
  | nil =>
    intro p t h
    simp only [firstSplit] at h
    split at h
    · rename_i hemp
      have hpat : pat = [] := by simpa using hemp
      simp only [Option.some.injEq, Prod.mk.injEq] at h
      obtain ⟨h1, h2⟩ := h
      subst h1
      subst h2
      simp [hpat]
    · exact absurd h (by simp)
  | cons c rest ih =>
    intro p t h
    simp only [firstSplit] at h
    split at h
    · rename_i hpre
      simp only [Option.some.injEq, Prod.mk.injEq] at h
      obtain ⟨h1, h2⟩ := h
      subst h1
      subst h2
      obtain ⟨u, hu⟩ := List.isPrefixOf_iff_prefix.mp hpre
      rw [List.nil_append, ← hu, List.drop_left]
    · cases hfs : firstSplit pat rest with
      | some pt =>
        obtain ⟨q, u⟩ := pt
        rw [hfs] at h
        simp only [Option.some.injEq, Prod.mk.injEq] at h
        obtain ⟨h1, h2⟩ := h
        subst h1
        subst h2
        have := ih q u hfs
        simp [this]
      | none =>
        rw [hfs] at h
        exact absurd h (by simp)

theorem firstSplit_none (pat : List Char) :
    ∀ s, firstSplit pat s = none → ∀ p t, s ≠ p ++ pat ++ t := by
  intro s
  induction s with
  | nil =>
    intro h p t heq
    simp only [firstSplit] at h
    split at h
    · exact absurd h (by simp)
    · rename_i hemp
      have hpat : pat ≠ [] := by
        intro hp
        subst hp
        exact hemp (by simp)
      have hlen := congrArg List.length heq
      have hpos : 0 < pat.length := List.length_pos.mpr hpat
      simp only [List.length_nil, List.length_append] at hlen
      omega
  | cons c rest ih =>
    intro h p t heq
    simp only [firstSplit] at h
    split at h
    · exact absurd h (by simp)
    · rename_i hnp
      cases hfs : firstSplit pat rest with
      | some pt =>
        obtain ⟨q, u⟩ := pt
        rw [hfs] at h
        exact absurd h (by simp)
      | none =>
        cases p with
        | nil =>
          apply hnp
          rw [List.isPrefixOf_iff_prefix]
          exact ⟨t, by simpa using heq.symm⟩
        | cons c' p' =>
          injection heq with hc hrest
          exact (ih hfs p' t) hrest

theorem firstSplit_minimal (pat : List Char) :
    ∀ s p t, firstSplit pat s = some (p, t) →
      ∀ p' t', s = p' ++ pat ++ t' → p.length ≤ p'.length := by
  intro s
  induction s with
  | nil =>
    intro p t h p' t' heq
    simp only [firstSplit] at h
    split at h
    · simp only [Option.some.injEq, Prod.mk.injEq] at h
      obtain ⟨h1, _⟩ := h
      subst h1
      simp
    · exact absurd h (by simp)
  | cons c rest ih =>
    intro p t h p' t' heq
    simp only [firstSplit] at h
    split at h
    · simp only [Option.some.injEq, Prod.mk.injEq] at h
      obtain ⟨h1, _⟩ := h
      subst h1
      simp
    · rename_i hnp
      cases hfs : firstSplit pat rest with
      | some pt =>
        obtain ⟨q, u⟩ := pt
        rw [hfs] at h
        simp only [Option.some.injEq, Prod.mk.injEq] at h
        obtain ⟨h1, _⟩ := h
        subst h1
        cases p' with
        | nil =>
          exfalso
          apply hnp
          rw [List.isPrefixOf_iff_prefix]
          exact ⟨t', by simpa using heq.symm⟩
        | cons c'' p'' =>
          injection heq with hc hrest
          have := ih q u hfs p'' t' hrest
          simp only [List.length_cons]
          omega
      | none =>
        rw [hfs] at h
        exact absurd h (by simp)

/-- C7: the post-receipt normalization of `complete` leaves the content
untouched when the reasoning-closing marker is absent, and otherwise keeps
exactly the text strictly after the first occurrence of the marker. -/
theorem C7_strip_reasoning (m : LLMChatMessage) (c : String) (p t : List Char) :
    (m.content = none → postReceive m = m) ∧
    (m.content = some c → (∀ p' t', c.data ≠ p' ++ thinkClose ++ t') →
      postReceive m = m) ∧
    (m.content = some c → c.data = p ++ thinkClose ++ t →
      (∀ p' t', c.data = p' ++ thinkClose ++ t' → p.length ≤ p'.length) →
      (postReceive m).content = some (String.mk t)) := by
  refine ⟨?_, ?_, ?_⟩
  · intro h
    simp [postReceive, h]
  · intro hc hno
    have hfs : firstSplit thinkClose c.data = none := by
      cases hfs : firstSplit thinkClose c.data with
      | none => rfl
      | some pt =>
        obtain ⟨q, u⟩ := pt
        exact absurd (firstSplit_eq_append thinkClose c.data q u hfs) (hno q u)
    have hst : stripThink c = c := by simp [stripThink, hfs]
    by_cases hce : c = ""
    · subst hce
      simp [postReceive, hc]
    · simp only [postReceive, hc]
      rw [if_pos (show (c != "") = true by simp [hce]), hst]
      cases m with
      | mk role content data tool_calls kind =>
        simp only [LLMChatMessage.content] at hc
        simp [hc]
  · intro hc hdec hmin
    have hne : c ≠ "" := by
      intro hce
      subst hce
      have hlen := congrArg List.length hdec
      simp only [List.length_append] at hlen
      have : thinkClose.length = 8 := by rfl
      simp only [this] at hlen
      simp at hlen
      omega
    cases hfs : firstSplit thinkClose c.data with
    | none => exact absurd hdec (firstSplit_none thinkClose c.data hfs p t)
    | some pt =>
      obtain ⟨q, u⟩ := pt
      have happ := firstSplit_eq_append thinkClose c.data q u hfs
      have h1 : q.length ≤ p.length := firstSplit_minimal thinkClose c.data q u hfs p t hdec
      have h2 : p.length ≤ q.length := hmin q u happ
      have hiter := happ.symm.trans hdec
      rw [List.append_assoc, List.append_assoc] at hiter
      have hq : q = p ∧ thinkClose ++ u = thinkClose ++ t :=
        List.append_inj hiter (Nat.le_antisymm h1 h2)
      have hu : u = t := List.append_cancel_left hq.2
      subst hu
      simp only [postReceive, hc]
      rw [if_pos (show (c != "") = true by simp [hne])]
      simp [stripThink, hfs]

/-- Witness for C7: marker-free content is untouched; content beginning with
the marker keeps only the text after it. -/
theorem C7_strip_reasoning_witness :
    postReceive { role := "assistant", content := some "plain text" } =
      { role := "assistant", content := some "plain text" } ∧
    (postReceive { role := "assistant", content := some "</think>xyz" }).content =
      some (String.mk "xyz".data) :=
  ⟨(C7_strip_reasoning { role := "assistant", content := some "plain text" }
      "plain text" [] []).2.1 rfl
      (firstSplit_none thinkClose ("plain text".data) (by rfl)),
   (C7_strip_reasoning { role := "assistant", content := some "</think>xyz" }
      "</think>xyz" [] ("xyz".data)).2.2 rfl (by rfl)
      (fun p' t' _ => Nat.zero_le _)⟩

/-! ### C3: FSM-mode decoding -/

theorem splitPlusAux_acc (l : List Char) :
    ∀ (cur : List Char) (acc : List (List Char)) (b : Bool),
      splitPlusAux l cur acc b = acc.reverse ++ splitPlusAux l cur [] b := by
  induction l with
  | nil =>
    intro cur acc b
    simp [splitPlusAux]
  | cons c rest ih =>
    intro cur acc b
    by_cases hc : (c == '+') = true
    · cases b with
      | true =>
        simp only [splitPlusAux, hc, if_true]
        exact ih cur acc true
      | false =>
        simp only [splitPlusAux, hc, if_true, Bool.false_eq_true, if_false]
        rw [ih [] (cur.reverse :: acc) true, ih [] [cur.reverse] true]
        simp
    · simp only [splitPlusAux, hc, if_false]
      exact ih (c :: cur) acc false

theorem splitPlusAux_ne_nil (l : List Char) :
    ∀ (cur : List Char) (acc : List (List Char)) (b : Bool),
      splitPlusAux l cur acc b ≠ [] := by
  induction l with
  | nil => intro cur acc b; simp [splitPlusAux]
  | cons c rest ih =>
    intro cur acc b
    by_cases hc : (c == '+') = true
    · cases b with
      | true => simp only [splitPlusAux, hc, if_true]; exact ih cur acc true
      | false =>
        simp only [splitPlusAux, hc, if_true, Bool.false_eq_true, if_false]
        exact ih [] (cur.reverse :: acc) true
    · simp only [splitPlusAux, hc, if_false]
      exact ih (c :: cur) acc false

theorem splitPlusAux_head (l : List Char) :
    ∀ cur : List Char,
      firstPart (splitPlusAux l cur [] false) = cur.reverse ++ firstSeg l := by
  induction l with
  | nil => intro cur; simp [splitPlusAux, firstPart, firstSeg]
  | cons c rest ih =>
    intro cur
    by_cases hc : (c == '+') = true
    · simp only [splitPlusAux, hc, if_true, Bool.false_eq_true, if_false]
      rw [splitPlusAux_acc rest [] [cur.reverse] true]
      have hq : (c != '+') = false := by simp [bne, hc]
      simp [firstPart, firstSeg, List.takeWhile_cons, hq]
    · have hcf : (c == '+') = false := by simpa using hc
      simp only [splitPlusAux, hcf, Bool.false_eq_true, if_false]
      rw [ih (c :: cur)]
      have hq : (c != '+') = true := by simp [bne, hcf]
      simp [firstSeg, List.takeWhile_cons, hq]

theorem takeWhile_append_of_mem (xs : List Char) :
    ∀ ys, '+' ∈ xs →
      (xs ++ ys).takeWhile (· != '+') = xs.takeWhile (· != '+') := by
  induction xs with
  | nil => intro ys h; simp at h
  | cons x xs ih =>
    intro ys h
    by_cases hx : x = '+'
    · subst hx
      simp [List.takeWhile_cons]
    · have hq : (x != '+') = true := by simp [bne, hx]
      have hmem : '+' ∈ xs := by
        cases List.mem_cons.mp h with
        | inl h' => exact absurd h'.symm hx
        | inr h' => exact h'
      simp only [List.cons_append, List.takeWhile_cons, hq, if_true]
      rw [ih ys hmem]

theorem takeWhile_append_of_all (xs : List Char) :
    ∀ ys, (∀ x ∈ xs, x ≠ '+') →
      (xs ++ ys).takeWhile (· != '+') = xs ++ ys.takeWhile (· != '+') := by
  induction xs with
  | nil => intro ys _; simp
  | cons x xs ih =>
    intro ys h
    have hq : (x != '+') = true := by simp [bne, h x (by simp)]
    have hall : ∀ x ∈ xs, x ≠ '+' := fun x hx => h x (by simp [hx])
    simp only [List.cons_append, List.takeWhile_cons, hq, if_true]
    rw [ih ys hall]

theorem lastSeg_no_plus (l : List Char) (h : '+' ∉ l) : lastSeg l = l := by
  have hall : ∀ x ∈ l.reverse, x ≠ '+' := by
    intro x hx hx'
    subst hx'
    exact h (List.mem_reverse.mp hx)
  have := takeWhile_append_of_all l.reverse [] hall
  simp only [List.append_nil, List.takeWhile_nil] at this
  simp [lastSeg, this]

theorem lastSeg_plus_cons (xs : List Char) :
    lastSeg ('+' :: xs) = if '+' ∈ xs then lastSeg xs else xs := by
  by_cases h : '+' ∈ xs
  · have hmem : '+' ∈ xs.reverse := List.mem_reverse.mpr h
    simp only [lastSeg, List.reverse_cons]
    rw [takeWhile_append_of_mem xs.reverse ['+'] hmem, if_pos h]
  · have hall : ∀ x ∈ xs.reverse, x ≠ '+' := by
      intro x hx hx'
      subst hx'
      exact h (List.mem_reverse.mp hx)
    simp only [lastSeg, List.reverse_cons]
    rw [takeWhile_append_of_all xs.reverse ['+'] hall, if_neg h]
    have : (['+'].takeWhile (· != '+')) = [] := by simp [List.takeWhile_cons, bne]
    simp [this]

theorem lastSeg_cons_ne (c : Char) (xs : List Char) (hc : c ≠ '+') :
    lastSeg (c :: xs) = if '+' ∈ xs then lastSeg xs else c :: xs := by
  by_cases h : '+' ∈ xs
  · have hmem : '+' ∈ xs.reverse := List.mem_reverse.mpr h
    simp only [lastSeg, List.reverse_cons]
    rw [takeWhile_append_of_mem xs.reverse [c] hmem, if_pos h]
  · have hall : ∀ x ∈ xs.reverse, x ≠ '+' := by
      intro x hx hx'
      subst hx'
      exact h (List.mem_reverse.mp hx)
    simp only [lastSeg, List.reverse_cons]
    rw [takeWhile_append_of_all xs.reverse [c] hall, if_neg h]
    have hq : (c != '+') = true := by simp [bne, hc]
    simp [List.takeWhile_cons, hq]

theorem splitPlusAux_last (l : List Char) :
    ∀ (cur : List Char) (b : Bool), (b = true → cur = []) →
      lastPart (splitPlusAux l cur [] b) =
        (if '+' ∈ l then lastSeg l else cur.reverse ++ l) := by
  induction l with
  | nil =>
    intro cur b _
    simp [splitPlusAux, lastPart]
  | cons c rest ih =>
    intro cur b hinv
    by_cases hc : c = '+'
    · subst hc
      have hcb : (('+' : Char) == '+') = true := by simp
      have hmem : ('+' : Char) ∈ '+' :: rest := by simp
      rw [if_pos hmem, lastSeg_plus_cons rest]
      cases b with
      | true =>
        have hcur : cur = [] := hinv rfl
        subst hcur
        simp only [splitPlusAux, hcb, if_true]
        rw [ih [] true (fun _ => rfl)]
        simp
      | false =>
        simp only [splitPlusAux, hcb, if_true, Bool.false_eq_true, if_false]
        rw [splitPlusAux_acc rest [] [cur.reverse] true]
        have hne := splitPlusAux_ne_nil rest [] [] true
        have hih := ih [] true (fun _ => rfl)
        simp only [lastPart] at hih ⊢
        rw [List.getLast?_append]
        cases hS : (splitPlusAux rest [] [] true).getLast? with
        | none => exact absurd (List.getLast?_eq_none_iff.mp hS) hne
        | some x =>
          rw [hS] at hih
          simpa using hih
    · have hcf : (c == '+') = false := by simp [hc]
      simp only [splitPlusAux, hcf, Bool.false_eq_true, if_false]
      rw [ih (c :: cur) false (fun h => by cases h)]
      have hmemIff : ('+' ∈ c :: rest) ↔ ('+' ∈ rest) := by
        constructor
        · intro hx
          rcases List.mem_cons.mp hx with h' | h'
          · exact absurd h'.symm hc
          · exact h'
        · exact fun hx => List.mem_cons_of_mem c hx
      rw [lastSeg_cons_ne c rest hc]
      by_cases h : '+' ∈ rest
      · simp [hmemIff, h]
      · simp [hmemIff, h, List.reverse_cons, List.append_assoc]

theorem firstPart_splitPlusRuns (l : List Char) :
    firstPart (splitPlusRuns l) = firstSeg l := by
  have := splitPlusAux_head l []
  simpa [splitPlusRuns] using this

theorem lastPart_splitPlusRuns (l : List Char) :
    lastPart (splitPlusRuns l) = lastSeg l := by
  have h := splitPlusAux_last l [] false (fun h => by cases h)
  by_cases hmem : '+' ∈ l
  · rw [splitPlusRuns, h, if_pos hmem]
  · rw [splitPlusRuns, h, if_neg hmem, lastSeg_no_plus l hmem]
    simp

/-- C3 counterexample: the claim says FSM decode splits at the FIRST maximal
run of `+` and takes the final segment of that split as the asserted state;
on `"Hello+World+End"` with end state `End` that rule would assert state
`World+End` and yield kind `message`, but the decoder (which splits at every
run and takes the last segment) yields `final_answer`. -/
theorem C3_fsm_first_run_cex :
    (fsmExtract "End" "Hello+World+End").kind = "final_answer" ∧
    specKindFirstRun "End" "Hello+World+End" = "message" ∧
    ("final_answer" : String) ≠ "message" :=
  ⟨rfl, rfl, by decide⟩

/-- C3 amended: FSM-mode decode splits the text at every maximal run of the
separator `+`; the trimmed segment before the FIRST run becomes the content,
the trimmed segment after the LAST run becomes the asserted state, and the
kind is `final_answer` iff that state equals the end-state name.  The
claim's concrete instances hold: `"Hello+++End"` with end state `End`
decodes to final_answer / `"Hello"`, and with end state `Other` to
message. -/
theorem C3_fsm_decode_amended (e t : String) :
    fsmExtract e t =
      { role := "assistant"
        content := some (String.mk (pyStripL (firstSeg t.data)))
        data := none
        tool_calls := none
        kind := if e = String.mk (pyStripL (lastSeg t.data)) then "final_answer"
                else "message" } ∧
    fsmExtract "End" "Hello+++End" =
      { role := "assistant", content := some "Hello", data := none, tool_calls := none,
        kind := "final_answer" } ∧
    fsmExtract "Other" "Hello+++End" =
      { role := "assistant", content := some "Hello", data := none, tool_calls := none,
        kind := "message" } := by
  refine ⟨?_, by rfl, by rfl⟩
  simp only [fsmExtract, firstPart_splitPlusRuns, lastPart_splitPlusRuns]
  by_cases he : e = String.mk (pyStripL (lastSeg t.data))
  · simp [he]
  · simp [he]

/-! ### C8: the thought section never surfaces -/

/-- Two section maps that have the same keys in the same order and equal
values except possibly at key `thought`. -/
def secsRel (s₁ s₂ : List (String × String)) : Prop :=
  List.Forall₂ (fun p q => p.1 = q.1 ∧ (p.1 = "thought" ∨ p.2 = q.2)) s₁ s₂

theorem secsRel_refl (s : List (String × String)) : secsRel s s := by
  induction s with
  | nil => exact List.Forall₂.nil
  | cons p s ih => exact List.Forall₂.cons ⟨rfl, Or.inr rfl⟩ ih

theorem secsRel_insert : ∀ {s₁ s₂ : List (String × String)}, secsRel s₁ s₂ →
    ∀ (k v₁ v₂ : String), (k = "thought" ∨ v₁ = v₂) →
    secsRel (insertSec s₁ k v₁) (insertSec s₂ k v₂) := by
  intro s₁ s₂ h
  induction h with
  | nil =>
    intro k v₁ v₂ hv
    exact List.Forall₂.cons ⟨rfl, hv⟩ List.Forall₂.nil
  | @cons p q s₁' s₂' hpq hrest ih =>
    intro k v₁ v₂ hv
    obtain ⟨pk, pv⟩ := p
    obtain ⟨qk, qv⟩ := q
    obtain ⟨hkk, hval⟩ := hpq
    simp only at hkk hval
    subst hkk
    simp only [insertSec]
    by_cases hpk : pk = k
    · rw [if_pos hpk, if_pos hpk]
      exact List.Forall₂.cons ⟨rfl, hv⟩ hrest
    · rw [if_neg hpk, if_neg hpk]
      exact List.Forall₂.cons ⟨rfl, hval⟩ (ih k v₁ v₂ hv)

theorem secsRel_lookup : ∀ {s₁ s₂ : List (String × String)}, secsRel s₁ s₂ →
    ∀ k, k ≠ "thought" → lookupSec s₁ k = lookupSec s₂ k := by
  intro s₁ s₂ h
  induction h with
  | nil => intro k _; rfl
  | @cons p q s₁' s₂' hpq hrest ih =>
    intro k hk
    obtain ⟨pk, pv⟩ := p
    obtain ⟨qk, qv⟩ := q
    obtain ⟨hkk, hval⟩ := hpq
    simp only at hkk hval
    subst hkk
    simp only [lookupSec]
    by_cases hpk : pk = k
    · rw [if_pos hpk, if_pos hpk]
      rcases hval with h' | h'
      · exact absurd (hpk ▸ h') hk
      · rw [h']
    · rw [if_neg hpk, if_neg hpk]
      exact ih k hk

theorem scanAux_congr : ∀ (ls : List String) (cur : Option String) (buf : String)
    {s₁ s₂ : List (String × String)}, secsRel s₁ s₂ →
    secsRel (scanAux ls cur buf s₁) (scanAux ls cur buf s₂) := by
  intro ls
  induction ls with
  | nil => intro cur buf s₁ s₂ h; exact h
  | cons l ls ih =>
    intro cur buf s₁ s₂ h
    rcases hl : headerName l with _ | w
    · simp only [scanAux, hl]
      cases cur with
      | some c => exact ih _ _ h
      | none => exact ih _ _ h
    · simp only [scanAux, hl]
      have hsec1 : secsRel
          (match cur with
           | some c => insertSec s₁ c (stripStr buf)
           | none => s₁)
          (match cur with
           | some c => insertSec s₂ c (stripStr buf)
           | none => s₂) := by
        cases cur with
        | some c => exact secsRel_insert h c _ _ (Or.inr rfl)
        | none => exact h
      by_cases hw : pyToLower w = "end"
      · rw [if_pos hw, if_pos hw]
        exact hsec1
      · rw [if_neg hw, if_neg hw]
        exact ih _ _ hsec1

theorem scanAux_thought : ∀ (ls : List String) (buf₁ buf₂ : String)
    {s₁ s₂ : List (String × String)}, secsRel s₁ s₂ →
    secsRel (scanAux ls (some "thought") buf₁ s₁) (scanAux ls (some "thought") buf₂ s₂) := by
  intro ls
  induction ls with
  | nil => intro buf₁ buf₂ s₁ s₂ h; exact h
  | cons l ls ih =>
    intro buf₁ buf₂ s₁ s₂ h
    rcases hl : headerName l with _ | w
    · simp only [scanAux, hl]
      exact ih _ _ h
    · simp only [scanAux, hl]
      have hsec1 : secsRel (insertSec s₁ "thought" (stripStr buf₁))
          (insertSec s₂ "thought" (stripStr buf₂)) :=
        secsRel_insert h "thought" _ _ (Or.inl rfl)
      by_cases hw : pyToLower w = "end"
      · rw [if_pos hw, if_pos hw]
        exact hsec1
      · rw [if_neg hw, if_neg hw]
        exact scanAux_congr ls _ _ hsec1

theorem scanAux_body (b : List String) (hb : ∀ l ∈ b, headerName l = none) :
    ∀ (rest : List String) (c : String) (buf : String) (secs : List (String × String)),
      scanAux (b ++ rest) (some c) buf secs = scanAux rest (some c) (joinFrom buf b) secs := by
  induction b with
  | nil => intro rest c buf secs; rfl
  | cons l b ih =>
    intro rest c buf secs
    have hl : headerName l = none := hb l (by simp)
    have hb' : ∀ x ∈ b, headerName x = none := fun x hx => hb x (by simp [hx])
    simp only [List.cons_append, scanAux, hl]
    exact ih hb' rest c (buf ++ l) secs

/-- The header line opening the thought section in the C8 statement. -/
def thoughtHeaderLine : String := "+++ thought +++\n"

theorem scanAux_thought_body (b₁ b₂ : List String)
    (h₁ : ∀ l ∈ b₁, headerName l = none) (h₂ : ∀ l ∈ b₂, headerName l = none)
    (post : List String) :
    ∀ (pre : List String) (cur : Option String) (buf : String)
      (secs : List (String × String)),
      secsRel (scanAux (pre ++ thoughtHeaderLine :: (b₁ ++ post)) cur buf secs)
              (scanAux (pre ++ thoughtHeaderLine :: (b₂ ++ post)) cur buf secs) := by
  intro pre
  induction pre with
  | nil =>
    intro cur buf secs
    have hth : headerName thoughtHeaderLine = some "thought" := by rfl
    have hlow : pyToLower "thought" = "thought" := by rfl
    have hend : pyToLower "thought" ≠ "end" := by decide
    simp only [List.nil_append, scanAux, hth]
    rw [if_neg hend, if_neg hend, hlow]
    rw [scanAux_body b₁ h₁ post "thought" "" _, scanAux_body b₂ h₂ post "thought" "" _]
    exact scanAux_thought post _ _ (secsRel_refl _)
  | cons l pre ih =>
    intro cur buf secs
    rcases hl : headerName l with _ | w
    · simp only [List.cons_append, scanAux, hl]
      cases cur with
      | some c => exact ih _ _ _
      | none => exact ih _ _ _
    · simp only [List.cons_append, scanAux, hl]
      by_cases hw : pyToLower w = "end"
      · rw [if_pos hw, if_pos hw]
        exact secsRel_refl _
      · rw [if_neg hw, if_neg hw]
        exact ih _ _ _

theorem buildResponse_congr (mode : WorkMode) {s₁ s₂ : List (String × String)}
    (h : secsRel s₁ s₂) : buildResponse mode s₁ = buildResponse mode s₂ := by
  have hdata := secsRel_lookup h "data" (by decide)
  have hta := secsRel_lookup h "tool_arguments" (by decide)
  have htn := secsRel_lookup h "tool_name" (by decide)
  have hkind := secsRel_lookup h "kind" (by decide)
  have hmsg := secsRel_lookup h "message" (by decide)
  simp only [buildResponse, builtMessage, dataValOf, toolArgsValOf, toolNameOf, toolCallsOf,
    resolvedKind, hdata, hta, htn, hkind, hmsg]

/-- C8: the thought section never surfaces — two responses that differ only
in the body of their thought section decode to equal messages (same
content, data, tool calls and kind), so no field of the result depends on
the thought body. -/
theorem C8_thought_never_surfaces (mode : WorkMode) (pre b₁ b₂ post : List String)
    (h₁ : ∀ l ∈ b₁, headerName l = none) (h₂ : ∀ l ∈ b₂, headerName l = none) :
    extractFromLines mode (pre ++ thoughtHeaderLine :: (b₁ ++ post)) =
    extractFromLines mode (pre ++ thoughtHeaderLine :: (b₂ ++ post)) :=
  buildResponse_congr mode (scanAux_thought_body b₁ b₂ h₁ h₂ post pre none "" [])

/-- Witness for C8 at two concrete responses differing only in the thought
body. -/
theorem C8_thought_never_surfaces_witness :
    extractFromLines WorkMode.CHAT
        ([] ++ thoughtHeaderLine ::
          (["secret A\n"] ++ ["+++ message +++\n", "hi\n", "+++ end +++"])) =
    extractFromLines WorkMode.CHAT
        ([] ++ thoughtHeaderLine ::
          (["secret B\n"] ++ ["+++ message +++\n", "hi\n", "+++ end +++"])) :=
  C8_thought_never_surfaces WorkMode.CHAT [] ["secret A\n"] ["secret B\n"]
    ["+++ message +++\n", "hi\n", "+++ end +++"] (by decide) (by decide)

end Sweetagent
